import Mathlib

/-!
Verification of the mixed-generation evolutionary engine of the
social_regulator_server repository.  The Python sources under
src/neuroevolution/evolution are shallowly embedded: fitness values are
rationals, genome and species identifiers are natural numbers, Python
dictionaries are association lists, Python sets are finite sets, and a
Python exception is an Option/none result.  Python's built-in round
(round half to even on the exact value) is modelled by pyRound.
-/

/-- Python's built-in round on an exact rational: round half to even. -/
def pyRound (q : ℚ) : ℤ :=
  let f : ℤ := ⌊q⌋
  let frac : ℚ := q - f
  if frac < 1/2 then f
  else if (1:ℚ)/2 < frac then f + 1
  else if f % 2 = 0 then f else f + 1

theorem pyRound_intCast (z : ℤ) : pyRound (z : ℚ) = z := by
  unfold pyRound
  simp

/-- pyRound is within a half of its argument. -/
theorem abs_pyRound_sub_le (q : ℚ) : |(pyRound q : ℚ) - q| ≤ 1/2 := by
  unfold pyRound
  have h0 : (⌊q⌋ : ℚ) ≤ q := Int.floor_le q
  have h1 : q < (⌊q⌋ : ℚ) + 1 := Int.lt_floor_add_one q
  by_cases hlt : q - (⌊q⌋ : ℚ) < 1/2
  · simp only [hlt, if_true]
    rw [abs_sub_comm, abs_of_nonneg (by linarith)]
    linarith
  · simp only [hlt, if_false]
    by_cases hgt : (1:ℚ)/2 < q - (⌊q⌋ : ℚ)
    · simp only [hgt, if_true]
      rw [abs_of_nonneg (by push_cast; linarith)]
      push_cast
      linarith
    · have heq : q - (⌊q⌋ : ℚ) = 1/2 := le_antisymm (not_lt.mp hgt) (not_lt.mp hlt)
      simp only [hgt, if_false]
      by_cases hpar : ⌊q⌋ % 2 = 0
      · simp only [hpar, if_true]
        rw [abs_sub_comm, abs_of_nonneg (by linarith)]
        linarith
      · simp only [hpar, if_false]
        rw [abs_of_nonneg (by push_cast; linarith)]
        push_cast
        linarith

/-- Evaluation helper: pyRound of a value in [n, n + 1/2) is n. -/
theorem pyRound_eq_of_lt_half (q : ℚ) (n : ℤ) (h1 : (n : ℚ) ≤ q)
    (h2 : q < (n : ℚ) + 1/2) : pyRound q = n := by
  have hf : ⌊q⌋ = n := Int.floor_eq_iff.mpr ⟨h1, by linarith⟩
  unfold pyRound
  rw [hf]
  have : q - (n : ℚ) < 1/2 := by linarith
  simp only [this, if_true]

/-- Evaluation helper: pyRound of a value in (n - 1/2, n) is n. -/
theorem pyRound_eq_of_gt_half (q : ℚ) (n : ℤ) (h1 : (n : ℚ) - 1/2 < q)
    (h2 : q < (n : ℚ)) : pyRound q = n := by
  have hf : ⌊q⌋ = n - 1 := by
    apply Int.floor_eq_iff.mpr
    constructor
    · push_cast; linarith
    · push_cast; linarith
  unfold pyRound
  rw [hf]
  have ha : ¬ (q - ((n - 1 : ℤ) : ℚ) < 1/2) := by push_cast; linarith
  have hb : (1:ℚ)/2 < q - ((n - 1 : ℤ) : ℚ) := by push_cast; linarith
  simp only [ha, if_false, hb, if_true]
  ring

/-- Evaluation helper: pyRound at an exact half rounds to the even
neighbour. -/
theorem pyRound_eq_half (n : ℤ) :
    pyRound ((n : ℚ) + 1/2) = if n % 2 = 0 then n else n + 1 := by
  have hf : ⌊(n : ℚ) + 1/2⌋ = n := by
    apply Int.floor_eq_iff.mpr
    constructor
    · linarith
    · norm_num
  unfold pyRound
  rw [hf]
  have ha : ¬ ((n : ℚ) + 1/2 - (n : ℚ) < 1/2) := by linarith
  have hb : ¬ ((1:ℚ)/2 < (n : ℚ) + 1/2 - (n : ℚ)) := by linarith
  simp only [ha, if_false, hb]

/-!
## src/neuroevolution/evolution/species.py — MixedGenerationSpecies.compute_pop_deficit
and src/neuroevolution/evolution/species_metrics.py — SpeciesMetrics.compute_species_deficit
(the two sources are the same formula; the first takes the species' dying
count, the second the evaluated count, as the baseline).
-/

/-- Embedding of MixedGenerationSpecies.compute_pop_deficit (species.py).
`dying_count` is the species' dying_count field, `expected_species_size`
the argument. -/
def compute_pop_deficit (dying_count : ℤ) (expected_species_size : ℚ) : ℤ :=
  let size_diff : ℚ := (expected_species_size - (dying_count : ℚ)) * (1/2)
  let rounded_diff : ℤ := pyRound size_diff
  if 0 < |rounded_diff| then dying_count + rounded_diff
  else if 0 < size_diff then dying_count + 1
  else if size_diff < 0 then dying_count - 1
  else dying_count

/-- Embedding of SpeciesMetrics.compute_species_deficit (species_metrics.py):
textually the same computation with the evaluated count as baseline. -/
def compute_species_deficit (expected_species_size : ℚ) (evaluated : ℤ) : ℤ :=
  compute_pop_deficit evaluated expected_species_size

/-- The deficit rule as the spec words it: baseline plus the rounded
half-difference, with an explicit edge rule when the half-difference rounds
to zero. -/
def specDeficitRule (dying_count : ℤ) (expected_species_size : ℚ) : ℤ :=
  let halfdiff : ℚ := (expected_species_size - (dying_count : ℚ)) * (1/2)
  if pyRound halfdiff ≠ 0 then dying_count + pyRound halfdiff
  else if 0 < halfdiff then dying_count + 1
  else if halfdiff < 0 then dying_count - 1
  else dying_count

/-- C8: the computed population deficit is dying_count + round(half-difference),
except that a half-difference rounding to zero gives dying_count + 1 when
strictly positive, dying_count - 1 when strictly negative, and dying_count
when exactly zero. -/
theorem compute_pop_deficit_eq_spec_rule (dying_count : ℤ) (expected_species_size : ℚ) :
    compute_pop_deficit dying_count expected_species_size =
      specDeficitRule dying_count expected_species_size := by
  unfold compute_pop_deficit specDeficitRule
  simp only [abs_pos]

/-!
## src/neuroevolution/evolution/elites.py — Elites

Genomes are kept as identifier/payload pairs; the Python dict built by
preserve (insertion of the selected pairs, whose identifiers are distinct
in a sorted member list) is kept as the selected list of pairs itself.
-/

/-- State of the Elites instance: the configured elitism plus the two
statistics set_elitism_stats writes. -/
structure ElitesState where
  elitism : ℕ
  elitism_count : ℕ
  non_elites : ℕ
  deriving DecidableEq

/-- Embedding of Elites.set_elitism_stats: elitism_count becomes
max(offspring_count, elitism), non_elites becomes
max(0, offspring_count - elitism_count). -/
def set_elitism_stats (s : ElitesState) (offspring_count : ℕ) : ElitesState :=
  let elitism_count := max offspring_count s.elitism
  { s with
    elitism_count := elitism_count
    non_elites := ((max 0 ((offspring_count : ℤ) - (elitism_count : ℤ))).toNat) }

/-- Embedding of Elites.preserve: updates the elitism statistics and
returns the first elitism_count members of the fitness-sorted parent list
(the elite dictionary) unchanged, together with the updated state. -/
def preserve {α : Type} (s : ElitesState) (sorted_parents : List (ℕ × α))
    (offspring_count : ℕ) : ElitesState × List (ℕ × α) :=
  let s2 := set_elitism_stats s offspring_count
  (s2, sorted_parents.take s2.elitism_count)

/-- C1 counterexample: with elitism_config = 2 and an offspring quota of 3
over three sorted parents, preserve keeps all 3 parents, not
min(elitism_config, quota) = 2 of them. -/
theorem preserve_not_min_counterexample :
    (preserve ⟨2, 0, 0⟩ [(1, 30), (2, 20), (3, 10)] 3).2.length = 3 ∧
      min 2 3 = 2 ∧ (3 : ℕ) ≠ 2 := by
  constructor
  · rfl
  · constructor
    · rfl
    · decide

/-- C1 amended: preserve keeps the first max(offspring_quota, elitism_config)
members of the sorted parent list unchanged (all of them when the list is
shorter); in particular, for elitism_config = k, the k highest-fitness
members of a species with at least k sorted members are all among the
preserved members, unchanged. -/
theorem preserve_takes_max_prefix {α : Type} (s : ElitesState)
    (sorted_parents : List (ℕ × α)) (offspring_count : ℕ) :
    (preserve s sorted_parents offspring_count).2 =
        sorted_parents.take (max offspring_count s.elitism) ∧
      (s.elitism ≤ sorted_parents.length →
        ∀ p ∈ sorted_parents.take s.elitism,
          p ∈ (preserve s sorted_parents offspring_count).2) := by
  constructor
  · rfl
  · intro _ p hp
    have hsub : sorted_parents.take s.elitism <+:
        sorted_parents.take (max offspring_count s.elitism) :=
      List.take_prefix_take_left _ (le_max_right _ _)
    exact hsub.subset hp

/-- Witness for the amended C1 theorem at a concrete input. -/
theorem preserve_takes_max_prefix_witness :
    (preserve ⟨2, 0, 0⟩ [(1, 30), (2, 20), (3, 10)] 1).2 =
        [(1, 30), (2, 20)] ∧ (1, 30) ∈ (preserve ⟨2, 0, 0⟩ [(1, 30), (2, 20), (3, 10)] 1).2 := by
  have h := preserve_takes_max_prefix ⟨2, 0, 0⟩ [(1, 30), (2, 20), (3, 10)] 1
  refine ⟨h.1, h.2 (by decide) (1, 30) (by decide)⟩

/-!
## src/neuroevolution/evolution/fitness_manager.py — FitnessManager
and the member/fitness part of species.py — MixedGenerationSpecies.

A species carries its key, its members as identifier/fitness pairs (the
genome payloads do not matter to the arithmetic), the cached aggregate
fitness values and history, and its dying count.
-/

/-- The per-species state the evolution arithmetic reads and writes. -/
structure SpeciesState where
  key : ℕ
  members : List (ℕ × ℚ)
  fitness : Option ℚ
  adjusted_fitness : Option ℚ
  dying_count : ℕ
  fitness_history : List ℚ
  deriving DecidableEq

/-- Embedding of MixedGenerationSpecies.get_fitnesses with a list of genome
ids to consider: the fitnesses of the members whose id is in the list, in
member order. -/
def get_fitnesses (sp : SpeciesState) (genome_ids_to_consider : List ℕ) : List ℚ :=
  (sp.members.filter (fun m => m.1 ∈ genome_ids_to_consider)).map (fun m => m.2)

/-- Python's min over a list of rationals; none models the ValueError on an
empty list. -/
def pyMinQ : List ℚ → Option ℚ
  | [] => none
  | x :: xs => some (xs.foldl min x)

/-- Python's max over a list of rationals; none models the ValueError on an
empty list. -/
def pyMaxQ : List ℚ → Option ℚ
  | [] => none
  | x :: xs => some (xs.foldl max x)

/-- neat.math_util.mean: sum divided by length; none models the
ZeroDivisionError on an empty list. -/
def pyMean (l : List ℚ) : Option ℚ :=
  match l with
  | [] => none
  | _ => some (l.sum / (l.length : ℚ))

/-- The arithmetic mean of a list (meaningful for nonempty lists). -/
def meanOf (l : List ℚ) : ℚ := l.sum / (l.length : ℚ)

theorem pyMean_eq_meanOf (l : List ℚ) (h : l ≠ []) : pyMean l = some (meanOf l) := by
  cases l with
  | nil => exact absurd rfl h
  | cons x xs => rfl

theorem foldl_min_le_init (xs : List ℚ) (x : ℚ) : xs.foldl min x ≤ x := by
  induction xs generalizing x with
  | nil => exact le_refl x
  | cons y ys ih =>
    calc (y :: ys).foldl min x = ys.foldl min (min x y) := rfl
    _ ≤ min x y := ih (min x y)
    _ ≤ x := min_le_left _ _

theorem foldl_min_le_mem (xs : List ℚ) (x y : ℚ) (hy : y ∈ xs) : xs.foldl min x ≤ y := by
  induction xs generalizing x with
  | nil => cases hy
  | cons z zs ih =>
    rcases List.mem_cons.mp hy with h | h
    · subst h
      calc (y :: zs).foldl min x = zs.foldl min (min x y) := rfl
      _ ≤ min x y := foldl_min_le_init zs (min x y)
      _ ≤ y := min_le_right _ _
    · exact ih (min x z) h

theorem init_le_foldl_max (xs : List ℚ) (x : ℚ) : x ≤ xs.foldl max x := by
  induction xs generalizing x with
  | nil => exact le_refl x
  | cons y ys ih =>
    calc x ≤ max x y := le_max_left _ _
    _ ≤ ys.foldl max (max x y) := ih (max x y)
    _ = (y :: ys).foldl max x := rfl

theorem mem_le_foldl_max (xs : List ℚ) (x y : ℚ) (hy : y ∈ xs) : y ≤ xs.foldl max x := by
  induction xs generalizing x with
  | nil => cases hy
  | cons z zs ih =>
    rcases List.mem_cons.mp hy with h | h
    · subst h
      calc y ≤ max x y := le_max_right _ _
      _ ≤ zs.foldl max (max x y) := init_le_foldl_max zs (max x y)
      _ = (y :: zs).foldl max x := rfl
    · exact ih (max x z) h

/-- Every element of a list bounds its min from above. -/
theorem pyMinQ_le (l : List ℚ) (m : ℚ) (hm : pyMinQ l = some m) :
    ∀ x ∈ l, m ≤ x := by
  cases l with
  | nil => cases hm
  | cons y ys =>
    intro x hx
    have hmv : m = ys.foldl min y := by
      simp only [pyMinQ, Option.some.injEq] at hm
      exact hm.symm
    subst hmv
    rcases List.mem_cons.mp hx with h | h
    · subst h; exact foldl_min_le_init ys x
    · exact foldl_min_le_mem ys y x h

/-- Every element of a list bounds its max from below. -/
theorem le_pyMaxQ (l : List ℚ) (m : ℚ) (hm : pyMaxQ l = some m) :
    ∀ x ∈ l, x ≤ m := by
  cases l with
  | nil => cases hm
  | cons y ys =>
    intro x hx
    have hmv : m = ys.foldl max y := by
      simp only [pyMaxQ, Option.some.injEq] at hm
      exact hm.symm
    subst hmv
    rcases List.mem_cons.mp hx with h | h
    · subst h; exact init_le_foldl_max ys x
    · exact mem_le_foldl_max ys y x h

theorem mul_length_le_sum (l : List ℚ) (a : ℚ) (h : ∀ x ∈ l, a ≤ x) :
    a * (l.length : ℚ) ≤ l.sum := by
  induction l with
  | nil => simp
  | cons x xs ih =>
    have hx : a ≤ x := h x (List.mem_cons_self x xs)
    have hxs : a * (xs.length : ℚ) ≤ xs.sum := ih (fun y hy => h y (List.mem_cons_of_mem x hy))
    simp only [List.sum_cons, List.length_cons]
    push_cast
    linarith

theorem sum_le_mul_length (l : List ℚ) (b : ℚ) (h : ∀ x ∈ l, x ≤ b) :
    l.sum ≤ b * (l.length : ℚ) := by
  induction l with
  | nil => simp
  | cons x xs ih =>
    have hx : x ≤ b := h x (List.mem_cons_self x xs)
    have hxs : xs.sum ≤ b * (xs.length : ℚ) := ih (fun y hy => h y (List.mem_cons_of_mem x hy))
    simp only [List.sum_cons, List.length_cons]
    push_cast
    linarith

/-- The mean of a nonempty list lies above any lower bound of the list. -/
theorem le_meanOf (l : List ℚ) (a : ℚ) (hne : l ≠ []) (h : ∀ x ∈ l, a ≤ x) :
    a ≤ meanOf l := by
  have hlen : (0 : ℚ) < (l.length : ℚ) := by
    have : 0 < l.length := List.length_pos.mpr hne
    exact_mod_cast this
  rw [meanOf, le_div_iff₀ hlen]
  exact mul_length_le_sum l a h

/-- The mean of a nonempty list lies below any upper bound of the list. -/
theorem meanOf_le (l : List ℚ) (b : ℚ) (hne : l ≠ []) (h : ∀ x ∈ l, x ≤ b) :
    meanOf l ≤ b := by
  have hlen : (0 : ℚ) < (l.length : ℚ) := by
    have : 0 < l.length := List.length_pos.mpr hne
    exact_mod_cast this
  rw [meanOf, div_le_iff₀ hlen]
  exact sum_le_mul_length l b h

/-- Embedding of FitnessManager.collect_new_fitnesses: the evaluated member
fitnesses of all active species, concatenated in species order. -/
def collect_new_fitnesses (active_species : List SpeciesState)
    (evaluated_genome_ids : List ℕ) : List ℚ :=
  match active_species with
  | [] => []
  | sp :: rest =>
      get_fitnesses sp evaluated_genome_ids ++
        collect_new_fitnesses rest evaluated_genome_ids

/-- The per-species loop of FitnessManager.adjust_fitnesses: each species
receives adjusted fitness (mean of its evaluated fitnesses - min)/range;
none models the ZeroDivisionError raised by mean on a species with no
evaluated members. -/
def adjustLoop (min_fitness range : ℚ) (evaluated_genome_ids : List ℕ) :
    List SpeciesState → Option (List SpeciesState × List ℚ)
  | [] => some ([], [])
  | sp :: rest =>
    match pyMean (get_fitnesses sp evaluated_genome_ids) with
    | none => none
    | some m =>
      let af := (m - min_fitness) / range
      match adjustLoop min_fitness range evaluated_genome_ids rest with
      | none => none
      | some (sps, afs) =>
          some ({ sp with adjusted_fitness := some af } :: sps, af :: afs)

/-- Embedding of FitnessManager.adjust_fitnesses: collect the evaluated
fitness pool; on an empty pool return with no adjustment; otherwise take
min and max of the pool, the range max(1, max - min) (written in the source
with a redundant max ≠ min guard), and update every species. -/
def adjust_fitnesses (active_species : List SpeciesState)
    (evaluated_genome_ids : List ℕ) : Option (List SpeciesState × List ℚ) :=
  let pool := collect_new_fitnesses active_species evaluated_genome_ids
  match pyMinQ pool, pyMaxQ pool with
  | some min_fitness, some max_fitness =>
      let range : ℚ :=
        if max_fitness ≠ min_fitness then max 1 (max_fitness - min_fitness) else 1
      adjustLoop min_fitness range evaluated_genome_ids active_species
  | _, _ => some (active_species, [])

/-- Membership in the collected pool: any evaluated fitness of a listed
species is in the pool. -/
theorem mem_collect_of_mem (active_species : List SpeciesState)
    (evaluated_genome_ids : List ℕ) (sp : SpeciesState)
    (hsp : sp ∈ active_species) (x : ℚ)
    (hx : x ∈ get_fitnesses sp evaluated_genome_ids) :
    x ∈ collect_new_fitnesses active_species evaluated_genome_ids := by
  induction active_species with
  | nil => cases hsp
  | cons sp2 rest ih =>
    rcases List.mem_cons.mp hsp with h | h
    · subst h
      exact List.mem_append_left _ hx
    · exact List.mem_append_right _ (ih h)

/-- The source's guarded range expression collapses to max(1, max - min)
whenever min ≤ max. -/
theorem range_expr_eq (min_fitness max_fitness : ℚ) (h : min_fitness ≤ max_fitness) :
    (if max_fitness ≠ min_fitness then max 1 (max_fitness - min_fitness) else 1) =
      max 1 (max_fitness - min_fitness) := by
  by_cases he : max_fitness = min_fitness
  · subst he
    simp
  · simp [he]

theorem adjustLoop_spec (min_fitness range : ℚ) (evaluated_genome_ids : List ℕ)
    (species : List SpeciesState)
    (hne : ∀ sp ∈ species, get_fitnesses sp evaluated_genome_ids ≠ []) :
    ∃ sps afs, adjustLoop min_fitness range evaluated_genome_ids species = some (sps, afs) ∧
      afs = species.map
        (fun sp => (meanOf (get_fitnesses sp evaluated_genome_ids) - min_fitness) / range) := by
  induction species with
  | nil => exact ⟨[], [], rfl, rfl⟩
  | cons sp rest ih =>
    obtain ⟨sps, afs, hrun, hafs⟩ :=
      ih (fun s hs => hne s (List.mem_cons_of_mem sp hs))
    have hm : pyMean (get_fitnesses sp evaluated_genome_ids) =
        some (meanOf (get_fitnesses sp evaluated_genome_ids)) :=
      pyMean_eq_meanOf _ (hne sp (List.mem_cons_self sp rest))
    set af := (meanOf (get_fitnesses sp evaluated_genome_ids) - min_fitness) / range with haf
    refine ⟨{ sp with adjusted_fitness := some af } :: sps, af :: afs, ?_, ?_⟩
    · simp only [adjustLoop, hm, hrun]
    · simp [hafs]

/-- C9: whenever the pool of evaluated fitnesses collected from the active
species is nonempty (so its min and max exist) and every active species has
at least one evaluated member, adjust_fitnesses succeeds, sets each
species' adjusted fitness to
(mean of the species' evaluated fitnesses - min_fitness) / max(1, max_fitness - min_fitness),
and every adjusted fitness lies in [0, 1]. -/
theorem adjust_fitnesses_formula_and_bounds
    (active_species : List SpeciesState) (evaluated_genome_ids : List ℕ)
    (min_fitness max_fitness : ℚ)
    (hmn : pyMinQ (collect_new_fitnesses active_species evaluated_genome_ids) =
      some min_fitness)
    (hmx : pyMaxQ (collect_new_fitnesses active_species evaluated_genome_ids) =
      some max_fitness)
    (hne : ∀ sp ∈ active_species, get_fitnesses sp evaluated_genome_ids ≠ []) :
    ∃ sps afs,
      adjust_fitnesses active_species evaluated_genome_ids = some (sps, afs) ∧
      afs = active_species.map (fun sp =>
        (meanOf (get_fitnesses sp evaluated_genome_ids) - min_fitness) /
          max 1 (max_fitness - min_fitness)) ∧
      ∀ af ∈ afs, 0 ≤ af ∧ af ≤ 1 := by
  have hmle : min_fitness ≤ max_fitness := by
    cases hpool : collect_new_fitnesses active_species evaluated_genome_ids with
    | nil => rw [hpool] at hmn; cases hmn
    | cons x xs =>
      rw [hpool] at hmn hmx
      have h1 := pyMinQ_le _ _ hmn x (List.mem_cons_self x xs)
      have h2 := le_pyMaxQ _ _ hmx x (List.mem_cons_self x xs)
      exact le_trans h1 h2
  have hrange0 : (0:ℚ) < max 1 (max_fitness - min_fitness) :=
    lt_of_lt_of_le one_pos (le_max_left _ _)
  obtain ⟨sps, afs, hrun, hafs⟩ :=
    adjustLoop_spec min_fitness (max 1 (max_fitness - min_fitness))
      evaluated_genome_ids active_species hne
  refine ⟨sps, afs, ?_, hafs, ?_⟩
  · simp only [adjust_fitnesses, hmn, hmx, range_expr_eq min_fitness max_fitness hmle]
    exact hrun
  · intro af haf
    rw [hafs] at haf
    obtain ⟨sp, hsp, hval⟩ := List.mem_map.mp haf
    have hspne := hne sp hsp
    have hmean_lo : min_fitness ≤ meanOf (get_fitnesses sp evaluated_genome_ids) := by
      refine le_meanOf _ _ hspne (fun x hx => ?_)
      exact pyMinQ_le _ _ hmn x
        (mem_collect_of_mem active_species evaluated_genome_ids sp hsp x hx)
    have hmean_hi : meanOf (get_fitnesses sp evaluated_genome_ids) ≤ max_fitness := by
      refine meanOf_le _ _ hspne (fun x hx => ?_)
      exact le_pyMaxQ _ _ hmx x
        (mem_collect_of_mem active_species evaluated_genome_ids sp hsp x hx)
    constructor
    · rw [← hval]
      exact div_nonneg (by linarith) (le_of_lt hrange0)
    · rw [← hval]
      rw [div_le_one hrange0]
      have : max_fitness - min_fitness ≤ max 1 (max_fitness - min_fitness) := le_max_right _ _
      linarith

/-- Witness for the C9 theorem: two species, one evaluated member each with
fitnesses 3 and 1; the adjusted fitnesses are 1 and 0. -/
theorem adjust_fitnesses_formula_and_bounds_witness :
    ∃ sps afs,
      adjust_fitnesses
        [⟨1, [(10, 3)], none, none, 0, []⟩, ⟨2, [(11, 1)], none, none, 0, []⟩]
        [10, 11] = some (sps, afs) ∧
      afs = [⟨1, [(10, 3)], none, none, 0, []⟩, ⟨2, [(11, 1)], none, none, 0, []⟩].map
        (fun sp => (meanOf (get_fitnesses sp [10, 11]) - 1) / max 1 (3 - 1)) ∧
      ∀ af ∈ afs, 0 ≤ af ∧ af ≤ 1 := by
  exact adjust_fitnesses_formula_and_bounds
    [⟨1, [(10, 3)], none, none, 0, []⟩, ⟨2, [(11, 1)], none, none, 0, []⟩]
    [10, 11] 1 3 (by decide) (by decide) (by decide)

/-!
## src/neuroevolution/evolution/species_reproduction.py — SpeciesReproduction
together with MixedGenerationSpecies.compute_expected_size (species.py).
-/

/-- Embedding of SpeciesReproduction.get_total_adjusted_fitness: 0 for no
active species, otherwise the MEAN of the species' adjusted fitnesses; none
models the TypeError when some adjusted fitness is still unset.
collectAdjusted reads off the species' adjusted fitness values. -/
def collectAdjusted : List SpeciesState → Option (List ℚ)
  | [] => some []
  | sp :: rest =>
    match sp.adjusted_fitness, collectAdjusted rest with
    | some af, some afs => some (af :: afs)
    | _, _ => none

/-- The generator feeding mean in get_total_adjusted_fitness (see above). -/
def get_total_adjusted_fitness (active_species : List SpeciesState) : Option ℚ :=
  match active_species with
  | [] => some 0
  | _ :: _ =>
    match collectAdjusted active_species with
    | none => none
    | some afs => some (meanOf afs)

/-- Embedding of SpeciesReproduction.get_total_death_counts: the sum of the
species' dying counts. -/
def get_total_death_counts (active_species : List SpeciesState) : ℤ :=
  (active_species.map (fun sp => (sp.dying_count : ℤ))).sum

/-- Embedding of MixedGenerationSpecies.compute_expected_size: for positive
total adjusted fitness, max(min_species_size, share of the total dying
population proportional to adjusted fitness); otherwise min_species_size. -/
def compute_expected_size (sp : SpeciesState) (min_species_size : ℤ)
    (total_adjusted_fitness : ℚ) (total_dying_pop : ℤ) : Option ℚ :=
  if 0 < total_adjusted_fitness then
    match sp.adjusted_fitness with
    | none => none
    | some af =>
        some (max (min_species_size : ℚ)
          (af / total_adjusted_fitness * (total_dying_pop : ℚ)))
  else some (min_species_size : ℚ)

/-- The normalized (pre-floor) offspring values inside
SpeciesReproduction.normalize_spawn_counts: round(deficit * norm) with
norm = total_dying_pop / total_deficit. -/
def normalized_deficits (total_dying_pop : ℤ) (deficit_per_species : List ℤ) : List ℤ :=
  deficit_per_species.map
    (fun (d : ℤ) =>
      pyRound ((d : ℚ) * ((total_dying_pop : ℚ) / (deficit_per_species.sum : ℚ))))

/-- Embedding of SpeciesReproduction.normalize_spawn_counts: on zero total
deficit every species gets min_species_size; otherwise each normalized
deficit is floored at min_species_size. -/
def normalize_spawn_counts (min_species_size : ℤ) (total_dying_pop : ℤ)
    (deficit_per_species : List ℤ) : List ℤ :=
  if deficit_per_species.sum = 0 then
    deficit_per_species.map (fun _ => min_species_size)
  else
    (normalized_deficits total_dying_pop deficit_per_species).map
      (fun v => max min_species_size v)

/-- The per-species loop of SpeciesReproduction.compute_offspring_counts:
each species' expected size, then its population deficit. -/
def deficitsLoop (min_species_size : ℤ) (total_adjusted_fitness : ℚ)
    (total_dying_pop : ℤ) : List SpeciesState → Option (List ℤ)
  | [] => some []
  | sp :: rest =>
    match compute_expected_size sp min_species_size total_adjusted_fitness total_dying_pop,
        deficitsLoop min_species_size total_adjusted_fitness total_dying_pop rest with
    | some e, some ds => some (compute_pop_deficit (sp.dying_count : ℤ) e :: ds)
    | _, _ => none

/-- Embedding of SpeciesReproduction.compute_offspring_counts: adjust the
fitnesses, take the MEAN total adjusted fitness and the total death count,
compute each species' expected size and population deficit, and normalize. -/
def compute_offspring_counts (active_species : List SpeciesState)
    (evaluated_genome_ids : List ℕ) (min_species_size : ℤ) : Option (List ℤ) :=
  (adjust_fitnesses active_species evaluated_genome_ids).bind (fun r =>
    (get_total_adjusted_fitness r.1).bind (fun taf =>
      (deficitsLoop min_species_size taf (get_total_death_counts r.1) r.1).map
        (fun deficits =>
          normalize_spawn_counts min_species_size (get_total_death_counts r.1) deficits)))

/-- The concrete five-species input used to refute C3: one dominant species
(single evaluated member of fitness 10, holding 100 percent of the adjusted
fitness) and four species with a single evaluated member of fitness 0; every
species has dying count 1, so the pre-cycle dying population is 5. -/
def cexSpeciesC3 : List SpeciesState :=
  [⟨1, [(1, 10)], none, none, 1, []⟩,
   ⟨2, [(2, 0)], none, none, 1, []⟩,
   ⟨3, [(3, 0)], none, none, 1, []⟩,
   ⟨4, [(4, 0)], none, none, 1, []⟩,
   ⟨5, [(5, 0)], none, none, 1, []⟩]

/-- The C3 counterexample species after fitness adjustment: the dominant
species holds adjusted fitness 1, the others 0. -/
def cexAdjC3 : List SpeciesState :=
  [⟨1, [(1, 10)], none, some 1, 1, []⟩,
   ⟨2, [(2, 0)], none, some 0, 1, []⟩,
   ⟨3, [(3, 0)], none, some 0, 1, []⟩,
   ⟨4, [(4, 0)], none, some 0, 1, []⟩,
   ⟨5, [(5, 0)], none, some 0, 1, []⟩]

theorem adjust_fitnesses_cex_eval :
    adjust_fitnesses cexSpeciesC3 [1, 2, 3, 4, 5] =
      some (cexAdjC3, [1, 0, 0, 0, 0]) := by
  simp only [cexSpeciesC3, cexAdjC3, adjust_fitnesses, collect_new_fitnesses,
    get_fitnesses, pyMinQ, pyMaxQ, adjustLoop, pyMean, meanOf]
  norm_num [max_def]

theorem deficits_cex_eval :
    deficitsLoop 2 (1/5) 5 cexAdjC3 = some [13, 2, 2, 2, 2] := by
  simp only [cexAdjC3, deficitsLoop, compute_expected_size, compute_pop_deficit,
    pyRound]
  norm_num [max_def]

set_option maxRecDepth 8000 in
theorem compute_offspring_counts_cex_eval :
    compute_offspring_counts cexSpeciesC3 [1, 2, 3, 4, 5] 2 =
      some [3, 2, 2, 2, 2] := by
  have htaf : get_total_adjusted_fitness cexAdjC3 = some (1/5) := by
    simp only [cexAdjC3, get_total_adjusted_fitness, collectAdjusted, meanOf]
    norm_num
  have htdp : get_total_death_counts cexAdjC3 = 5 := by
    simp only [cexAdjC3, get_total_death_counts]
    norm_num
  have e1 : pyRound ((65 : ℚ) / 21) = 3 :=
    pyRound_eq_of_lt_half _ 3 (by norm_num) (by norm_num)
  have e2 : pyRound ((10 : ℚ) / 21) = 0 :=
    pyRound_eq_of_lt_half _ 0 (by norm_num) (by norm_num)
  have hnorm : normalize_spawn_counts 2 5 [13, 2, 2, 2, 2] = [3, 2, 2, 2, 2] := by
    simp only [normalize_spawn_counts, normalized_deficits]
    norm_num [e1, e2, max_def]
  simp only [compute_offspring_counts, adjust_fitnesses_cex_eval, htaf, htdp,
    deficits_cex_eval, hnorm, Option.some_bind, Option.map_some']

/-- C3 counterexample: for the five-species dying population of size 5
above (single dominant species with all the adjusted fitness, all-equal
fitness elsewhere), the final allocated offspring counts are [3, 2, 2, 2, 2],
whose sum 11 already differs from the dying population size 5 by 6, more
than the species count 5 — before even adding preserved elites, which could
only widen the gap. -/
theorem offspring_conservation_counterexample :
    compute_offspring_counts cexSpeciesC3 [1, 2, 3, 4, 5] 2 =
        some [3, 2, 2, 2, 2] ∧
      get_total_death_counts cexSpeciesC3 = 5 ∧
      cexSpeciesC3.length = 5 ∧
      ¬ |([3, 2, 2, 2, 2] : List ℤ).sum - 5| ≤ 5 := by
  refine ⟨compute_offspring_counts_cex_eval, ?_, rfl, ?_⟩
  · simp only [cexSpeciesC3, get_total_death_counts]
    norm_num
  · norm_num

theorem list_int_sum_mul (l : List ℤ) (c : ℚ) :
    (l.map (fun (d : ℤ) => (d : ℚ) * c)).sum = ((l.sum : ℤ) : ℚ) * c := by
  induction l with
  | nil => simp
  | cons x xs ih =>
    simp only [List.map_cons, List.sum_cons, ih, Int.cast_add]
    ring

theorem abs_sum_map_pyRound_sub_sum (l : List ℚ) :
    |(((l.map pyRound).sum : ℤ) : ℚ) - l.sum| ≤ (l.length : ℚ) / 2 := by
  induction l with
  | nil => simp
  | cons x xs ih =>
    have hx := abs_pyRound_sub_le x
    simp only [List.map_cons, List.sum_cons, List.length_cons]
    have hsplit : ((pyRound x + (xs.map pyRound).sum : ℤ) : ℚ) - (x + xs.sum) =
        ((pyRound x : ℚ) - x) + ((((xs.map pyRound).sum : ℤ) : ℚ) - xs.sum) := by
      rw [Int.cast_add]
      ring
    rw [hsplit]
    calc |((pyRound x : ℚ) - x) + ((((xs.map pyRound).sum : ℤ) : ℚ) - xs.sum)|
        ≤ |(pyRound x : ℚ) - x| + |(((xs.map pyRound).sum : ℤ) : ℚ) - xs.sum| :=
          abs_add _ _
      _ ≤ 1/2 + (xs.length : ℚ) / 2 := add_le_add hx ih
      _ = ((xs.length : ℚ) + 1) / 2 := by ring
      _ = (((xs.length : ℕ) + 1 : ℕ) : ℚ) / 2 := by push_cast; ring

/-- C3 amended: when the species' total population deficit is nonzero, the
sum of the normalized (pre-floor) offspring values round(deficit_i * D /
total_deficit) differs from the total dying population D by at most the
number of species; the final counts of normalize_spawn_counts are exactly
these values floored at min_species_size — and that floor (together with
the preserved elites) is what can push the final total beyond the bound,
as the counterexample shows. -/
theorem normalized_deficits_sum_within_species_count (min_species_size D : ℤ)
    (deficits : List ℤ) (h : deficits.sum ≠ 0) :
    |(((normalized_deficits D deficits).sum : ℤ) : ℚ) - (D : ℚ)| ≤
        (deficits.length : ℚ) ∧
      normalize_spawn_counts min_species_size D deficits =
        (normalized_deficits D deficits).map (fun v => max min_species_size v) := by
  constructor
  · have hT : ((deficits.sum : ℤ) : ℚ) ≠ 0 := Int.cast_ne_zero.mpr h
    have hxs : (deficits.map
        (fun (d : ℤ) => (d : ℚ) * ((D : ℚ) / (deficits.sum : ℚ)))).sum = (D : ℚ) := by
      rw [list_int_sum_mul, mul_comm]
      exact div_mul_cancel₀ (D : ℚ) hT
    have hmm : normalized_deficits D deficits =
        (deficits.map
          (fun (d : ℤ) => (d : ℚ) * ((D : ℚ) / (deficits.sum : ℚ)))).map pyRound := by
      simp only [normalized_deficits, List.map_map]
      rfl
    have hb := abs_sum_map_pyRound_sub_sum
      (deficits.map (fun (d : ℤ) => (d : ℚ) * ((D : ℚ) / (deficits.sum : ℚ))))
    rw [hxs, ← hmm] at hb
    have hlen : ((deficits.map
        (fun (d : ℤ) => (d : ℚ) * ((D : ℚ) / (deficits.sum : ℚ)))).length : ℚ) =
        (deficits.length : ℚ) := by
      rw [List.length_map]
    rw [hlen] at hb
    have hnn : (0 : ℚ) ≤ (deficits.length : ℚ) := by positivity
    calc |(((normalized_deficits D deficits).sum : ℤ) : ℚ) - (D : ℚ)|
        ≤ (deficits.length : ℚ) / 2 := hb
      _ ≤ (deficits.length : ℚ) := by linarith
  · simp only [normalize_spawn_counts, h, if_false]

/-- Witness for the amended C3 theorem at the counterexample deficits. -/
theorem normalized_deficits_sum_within_species_count_witness :
    ([13, 2, 2, 2, 2] : List ℤ).sum ≠ 0 ∧
      (|(((normalized_deficits 5 [13, 2, 2, 2, 2]).sum : ℤ) : ℚ) - (5 : ℚ)| ≤
          (([13, 2, 2, 2, 2] : List ℤ).length : ℚ) ∧
        normalize_spawn_counts 2 5 [13, 2, 2, 2, 2] =
          (normalized_deficits 5 [13, 2, 2, 2, 2]).map (fun v => max 2 v)) :=
  ⟨by norm_num,
    normalized_deficits_sum_within_species_count 2 5 [13, 2, 2, 2, 2] (by norm_num)⟩

/-!
## src/neuroevolution/evolution/stagnation.py — MixedGenerationStagnation

update_species_fitness applies the configured species fitness aggregator
(neat-python's stat_functions: mean by default) to the species' evaluated
fitnesses; calculate_prev_fitness falls back to -sys.float_info.max on an
empty history.  Python's stable list.sort with reverse=True is modelled by
a stable insertion sort on the fitness key, descending.
-/

/-- The sentinel -sys.float_info.max. -/
def negMaxFloat : ℚ := -(2 ^ 1024 - 2 ^ 971)

/-- Embedding of MixedGenerationStagnation.calculate_prev_fitness:
max of the fitness history, or the sentinel for an empty history. -/
def calculate_prev_fitness (sp : SpeciesState) : ℚ :=
  match pyMaxQ sp.fitness_history with
  | some m => m
  | none => negMaxFloat

/-- Embedding of MixedGenerationStagnation.update_species_fitness: apply the
configured species fitness aggregator to the species' evaluated fitnesses,
append to the history and clear the adjusted fitness; none models the
exception the aggregator raises on an empty list. -/
def update_species_fitness (species_fitness_func : List ℚ → Option ℚ)
    (sp : SpeciesState) (evaluated_genome_ids : List ℕ) : Option SpeciesState :=
  match species_fitness_func (get_fitnesses sp evaluated_genome_ids) with
  | none => none
  | some f =>
      some { sp with
        fitness := some f
        fitness_history := sp.fitness_history ++ [f]
        adjusted_fitness := none }

/-- C6 counterexample: updating the fitness of a species that has a member
but no evaluated members applies mean to an empty list, which raises
ZeroDivisionError (none) — no negative-infinity sentinel is assigned and
the call does not return normally. -/
theorem update_species_fitness_empty_counterexample :
    get_fitnesses ⟨7, [(1, 5)], none, none, 0, []⟩ [] = [] ∧
      update_species_fitness pyMean ⟨7, [(1, 5)], none, none, 0, []⟩ [] = none := by
  constructor
  · rfl
  · rfl

/-- C6 amended: with the mean aggregator, updating a species with no
evaluated members raises ZeroDivisionError (mean of an empty list) instead
of assigning a sentinel; the -sys.float_info.max sentinel appears only in
calculate_prev_fitness as the previous best fitness of a species whose
fitness_history is empty. -/
theorem update_species_fitness_empty_raises (sp : SpeciesState)
    (evaluated_genome_ids : List ℕ)
    (h : get_fitnesses sp evaluated_genome_ids = []) :
    update_species_fitness pyMean sp evaluated_genome_ids = none ∧
      (sp.fitness_history = [] → calculate_prev_fitness sp = negMaxFloat) := by
  constructor
  · rw [update_species_fitness, h]
    rfl
  · intro hh
    rw [calculate_prev_fitness, hh]
    rfl

/-- Witness for the amended C6 theorem at a concrete input. -/
theorem update_species_fitness_empty_raises_witness :
    update_species_fitness pyMean ⟨7, [(1, 5)], none, none, 0, []⟩ [] = none ∧
      ((⟨7, [(1, 5)], none, none, 0, []⟩ : SpeciesState).fitness_history = [] →
        calculate_prev_fitness ⟨7, [(1, 5)], none, none, 0, []⟩ = negMaxFloat) :=
  update_species_fitness_empty_raises ⟨7, [(1, 5)], none, none, 0, []⟩ [] rfl

/-- The per-species fitness data _identify_stagnant_species reads. -/
structure SpeciesFitnessData where
  sid : ℕ
  fitness : ℚ
  last_improved : ℤ
  deriving DecidableEq

/-- Stable descending insertion on the fitness key: an element is placed
before the first entry of strictly smaller fitness (ties keep the earlier
entry first), matching Python's stable sort with reverse=True. -/
def insertByFitnessDesc (x : SpeciesFitnessData) :
    List SpeciesFitnessData → List SpeciesFitnessData
  | [] => [x]
  | y :: ys => if x.fitness < y.fitness then y :: insertByFitnessDesc x ys
      else x :: y :: ys

/-- Embedding of MixedGenerationStagnation.sort_by_fitness: the species
data sorted by fitness, descending, stably. -/
def sort_by_fitness : List SpeciesFitnessData → List SpeciesFitnessData
  | [] => []
  | x :: xs => insertByFitnessDesc x (sort_by_fitness xs)

/-- The loop of _identify_stagnant_species: walk the descending-sorted
species with a running index and the num_non_stagnant counter; a species is
stagnant iff its stagnation time exceeds max_stagnation and
(num_non_stagnant - index) is not below species_elitism
(_is_species_stagnant); each stagnant species decrements the counter. -/
def identifyStagnantAux (max_stagnation species_elitism generation : ℤ) :
    List SpeciesFitnessData → ℤ → ℤ → List (ℕ × Bool)
  | [], _, _ => []
  | sp :: rest, i, nns =>
    let stag : Bool :=
      decide (max_stagnation < generation - sp.last_improved) &&
        ! decide (nns - i < species_elitism)
    (sp.sid, stag) ::
      identifyStagnantAux max_stagnation species_elitism generation rest (i + 1)
        (if stag then nns - 1 else nns)

/-- Embedding of MixedGenerationStagnation._identify_stagnant_species. -/
def identify_stagnant_species (species_data : List SpeciesFitnessData)
    (generation max_stagnation species_elitism : ℤ) : List (ℕ × Bool) :=
  identifyStagnantAux max_stagnation species_elitism generation
    (sort_by_fitness species_data) 0 (species_data.length : ℤ)

/-- C2: with species_elitism = 1, max_stagnation = 15 and generation 20,
species 1 has the highest fitness (10) and stagnation time 20, species 2
has fitness 0 and stagnation time 0; the code marks species 1 — the single
best species, which species elitism must protect — stagnant, and leaves
species 2 unmarked.  The protection test (num_non_stagnant - index <
species_elitism) fires for the tail of the descending-sorted list, i.e. the
LOWEST-fitness species, not the top ones. -/
theorem identify_stagnant_marks_best_species :
    identify_stagnant_species [⟨1, 10, 0⟩, ⟨2, 0, 20⟩] 20 15 1 =
      [(1, true), (2, false)] := by
  decide

/-!
## src/neuroevolution/evolution/genome_manager.py — GenomeManager

The store keeps the genome dictionary as its key set (the opaque genome
payloads play no role in the indexing logic), the index sets as finite
sets, and the representative and species maps as association lists with
Python-dict update semantics.
-/

/-- Association-list lookup with Python dict semantics. -/
def dictGet? (l : List (ℕ × ℕ)) (k : ℕ) : Option ℕ :=
  (l.find? (fun p => p.1 == k)).map (fun p => p.2)

/-- Association-list assignment with Python dict semantics: replace in
place when the key is present, append otherwise. -/
def dictSet (l : List (ℕ × ℕ)) (k v : ℕ) : List (ℕ × ℕ) :=
  if l.any (fun p => p.1 == k) then
    l.map (fun p => if p.1 == k then (k, v) else p)
  else l ++ [(k, v)]

/-- Association-list deletion. -/
def dictDel (l : List (ℕ × ℕ)) (k : ℕ) : List (ℕ × ℕ) :=
  l.filter (fun p => ! (p.1 == k))

/-- The GenomeManager state. -/
structure GMState where
  genomes : Finset ℕ
  free_genomes : Finset ℕ
  evaluated_genomes : Finset ℕ
  elite_genomes : Finset ℕ
  representative_genomes : List (ℕ × ℕ)
  unspeciated_genomes : Finset ℕ
  genome_species_map : List (ℕ × ℕ)
  alive_genomes_count : ℤ
  deriving DecidableEq

/-- The fresh GenomeManager built by GenomeManager.__init__. -/
def gmInit : GMState := ⟨∅, ∅, ∅, ∅, [], ∅, [], 0⟩

/-- Embedding of GenomeManager.add_genome. -/
def add_genome (s : GMState) (genome_id : ℕ) : GMState :=
  { s with
    genomes := insert genome_id s.genomes
    unspeciated_genomes := insert genome_id s.unspeciated_genomes
    free_genomes := insert genome_id s.free_genomes
    alive_genomes_count := s.alive_genomes_count + 1 }

/-- Embedding of GenomeManager.remove_genome: a no-op when the id is not
stored; otherwise the id is discarded from every index set, the species
map entry and (when it points at this id) the representative entry are
deleted, and the alive count is decremented. -/
def remove_genome (s : GMState) (genome_id : ℕ) : GMState :=
  if genome_id ∈ s.genomes then
    let s1 := { s with
      genomes := s.genomes.erase genome_id
      evaluated_genomes := s.evaluated_genomes.erase genome_id
      elite_genomes := s.elite_genomes.erase genome_id
      unspeciated_genomes := s.unspeciated_genomes.erase genome_id
      free_genomes := s.free_genomes.erase genome_id
      alive_genomes_count := s.alive_genomes_count - 1 }
    match dictGet? s.genome_species_map genome_id with
    | some species_id =>
        { s1 with
          representative_genomes :=
            if dictGet? s.representative_genomes species_id = some genome_id then
              dictDel s.representative_genomes species_id
            else s.representative_genomes
          genome_species_map := dictDel s.genome_species_map genome_id }
    | none => s1
  else s

/-- Embedding of GenomeManager.clear_evaluated. -/
def clear_evaluated (s : GMState) : GMState := { s with evaluated_genomes := ∅ }

/-- Embedding of GenomeManager.clear_elites. -/
def clear_elites (s : GMState) : GMState := { s with elite_genomes := ∅ }

/-- Embedding of GenomeManager.set_unavailable. -/
def set_unavailable (s : GMState) (genome_id : ℕ) : GMState :=
  { s with free_genomes := s.free_genomes.erase genome_id }

/-- Embedding of GenomeManager.set_evaluated. -/
def set_evaluated (s : GMState) (genome_id : ℕ) : GMState :=
  { s with evaluated_genomes := insert genome_id s.evaluated_genomes }

/-- Embedding of GenomeManager.set_elite: the id is added to the elite set
AND to the free set. -/
def set_elite (s : GMState) (genome_id : ℕ) : GMState :=
  { s with
    elite_genomes := insert genome_id s.elite_genomes
    free_genomes := insert genome_id s.free_genomes }

/-- Embedding of GenomeManager.assign_genome_to_species. -/
def assign_genome_to_species (s : GMState) (genome_id species_id : ℕ) : GMState :=
  { s with
    genome_species_map := dictSet s.genome_species_map genome_id species_id
    unspeciated_genomes := s.unspeciated_genomes.erase genome_id }

/-- The Genome Store operations named by the claims. -/
inductive GMOp where
  | add (gid : ℕ)
  | remove (gid : ℕ)
  | setUnavailable (gid : ℕ)
  | setEvaluated (gid : ℕ)
  | setElite (gid : ℕ)
  | assignToSpecies (gid sid : ℕ)
  | clearEvaluated
  | clearElites
  deriving DecidableEq

/-- One operation applied to the store. -/
def applyOp (s : GMState) : GMOp → GMState
  | .add gid => add_genome s gid
  | .remove gid => remove_genome s gid
  | .setUnavailable gid => set_unavailable s gid
  | .setEvaluated gid => set_evaluated s gid
  | .setElite gid => set_elite s gid
  | .assignToSpecies gid sid => assign_genome_to_species s gid sid
  | .clearEvaluated => clear_evaluated s
  | .clearElites => clear_elites s

/-- A sequence of operations applied to the store. -/
def runOps (s : GMState) : List GMOp → GMState
  | [] => s
  | op :: ops => runOps (applyOp s op) ops

/-- C4 counterexample: after add_genome(1); set_evaluated(1) the alive id 1
is in both free and evaluated (set_evaluated does not remove the id from
free), and after add_genome(2); set_elite(2) the alive id 2 is in both
elite and free (set_elite adds the id to free). -/
theorem index_sets_not_disjoint_counterexample :
    (1 ∈ (runOps gmInit [.add 1, .setEvaluated 1]).genomes ∧
      1 ∈ (runOps gmInit [.add 1, .setEvaluated 1]).free_genomes ∧
      1 ∈ (runOps gmInit [.add 1, .setEvaluated 1]).evaluated_genomes) ∧
    (2 ∈ (runOps gmInit [.add 2, .setElite 2]).genomes ∧
      2 ∈ (runOps gmInit [.add 2, .setElite 2]).free_genomes ∧
      2 ∈ (runOps gmInit [.add 2, .setElite 2]).elite_genomes) := by
  decide

/-- The marking operations reference a currently stored genome id. -/
def opTargetsAlive (s : GMState) : GMOp → Prop
  | .setUnavailable gid => gid ∈ s.genomes
  | .setEvaluated gid => gid ∈ s.genomes
  | .setElite gid => gid ∈ s.genomes
  | _ => True

/-- A run in which every marking operation targets an id stored at the
moment the operation executes. -/
def wfRun (s : GMState) : List GMOp → Prop
  | [] => True
  | op :: ops => opTargetsAlive s op ∧ wfRun (applyOp s op) ops

instance (s : GMState) (op : GMOp) : Decidable (opTargetsAlive s op) := by
  cases op <;> simp only [opTargetsAlive] <;> infer_instance

instance (s : GMState) (ops : List GMOp) : Decidable (wfRun s ops) := by
  induction ops generalizing s with
  | nil => exact isTrue trivial
  | cons op ops ih =>
    have : Decidable (opTargetsAlive s op ∧ wfRun (applyOp s op) ops) :=
      @instDecidableAnd _ _ _ (ih (applyOp s op))
    exact this

/-- The three lifecycle index sets only hold stored ids. -/
def indexSetsAlive (s : GMState) : Prop :=
  s.free_genomes ⊆ s.genomes ∧ s.evaluated_genomes ⊆ s.genomes ∧
    s.elite_genomes ⊆ s.genomes

theorem indexSetsAlive_step (s : GMState) (op : GMOp) (hs : indexSetsAlive s)
    (hop : opTargetsAlive s op) : indexSetsAlive (applyOp s op) := by
  obtain ⟨hf, hev, hel⟩ := hs
  cases op with
  | add gid =>
    refine ⟨?_, ?_, ?_⟩
    · exact Finset.insert_subset_insert gid hf
    · exact hev.trans (Finset.subset_insert gid s.genomes)
    · exact hel.trans (Finset.subset_insert gid s.genomes)
  | remove gid =>
    simp only [applyOp, remove_genome]
    by_cases hmem : gid ∈ s.genomes
    · simp only [hmem, if_true]
      cases hsp : dictGet? s.genome_species_map gid with
      | none =>
        exact ⟨Finset.erase_subset_erase gid hf, Finset.erase_subset_erase gid hev,
          Finset.erase_subset_erase gid hel⟩
      | some sid =>
        exact ⟨Finset.erase_subset_erase gid hf, Finset.erase_subset_erase gid hev,
          Finset.erase_subset_erase gid hel⟩
    · simp only [hmem, if_false]
      exact ⟨hf, hev, hel⟩
  | setUnavailable gid =>
    exact ⟨(Finset.erase_subset gid s.free_genomes).trans hf, hev, hel⟩
  | setEvaluated gid =>
    exact ⟨hf, Finset.insert_subset hop hev, hel⟩
  | setElite gid =>
    exact ⟨Finset.insert_subset hop hf, hev, Finset.insert_subset hop hel⟩
  | assignToSpecies gid sid => exact ⟨hf, hev, hel⟩
  | clearEvaluated => exact ⟨hf, Finset.empty_subset _, hel⟩
  | clearElites => exact ⟨hf, hev, Finset.empty_subset _⟩

theorem indexSetsAlive_run (s : GMState) (ops : List GMOp) (hs : indexSetsAlive s)
    (hwf : wfRun s ops) : indexSetsAlive (runOps s ops) := by
  induction ops generalizing s with
  | nil => exact hs
  | cons op ops ih =>
    exact ih (applyOp s op) (indexSetsAlive_step s op hs hwf.1) hwf.2

/-- C4 amended: after any sequence of Genome Store operations whose marking
calls target stored ids, every id in free, evaluated or elite is an alive
(stored) genome id; the three sets are however NOT pairwise disjoint — an
alive id may be free and evaluated, or free and elite, at the same time
(see the counterexample). -/
theorem index_sets_subset_alive (ops : List GMOp) (hwf : wfRun gmInit ops)
    (gid : ℕ)
    (hmem : gid ∈ (runOps gmInit ops).free_genomes ∨
      gid ∈ (runOps gmInit ops).evaluated_genomes ∨
      gid ∈ (runOps gmInit ops).elite_genomes) :
    gid ∈ (runOps gmInit ops).genomes := by
  have hinit : indexSetsAlive gmInit :=
    ⟨Finset.empty_subset _, Finset.empty_subset _, Finset.empty_subset _⟩
  have h := indexSetsAlive_run gmInit ops hinit hwf
  rcases hmem with h1 | h1 | h1
  · exact h.1 h1
  · exact h.2.1 h1
  · exact h.2.2 h1

/-- Witness for the amended C4 theorem at a concrete run. -/
theorem index_sets_subset_alive_witness :
    wfRun gmInit [.add 1, .setEvaluated 1] ∧
      1 ∈ (runOps gmInit [.add 1, .setEvaluated 1]).genomes :=
  ⟨by decide, index_sets_subset_alive [.add 1, .setEvaluated 1] (by decide) 1
    (Or.inr (Or.inl (by decide)))⟩

/-- An add/remove-only run whose added ids were never used before. -/
def freshAddRun (used : Finset ℕ) : List GMOp → Prop
  | [] => True
  | .add gid :: ops => gid ∉ used ∧ freshAddRun (insert gid used) ops
  | .remove _ :: ops => freshAddRun used ops
  | _ :: _ => False

instance (used : Finset ℕ) (ops : List GMOp) : Decidable (freshAddRun used ops) := by
  induction ops generalizing used with
  | nil => exact isTrue trivial
  | cons op ops ih =>
    cases op with
    | add gid => exact @instDecidableAnd _ _ _ (ih (insert gid used))
    | remove gid => exact ih used
    | setUnavailable gid => exact isFalse id
    | setEvaluated gid => exact isFalse id
    | setElite gid => exact isFalse id
    | assignToSpecies gid sid => exact isFalse id
    | clearEvaluated => exact isFalse id
    | clearElites => exact isFalse id

theorem alive_count_run_aux (ops : List GMOp) (used : Finset ℕ) (s : GMState)
    (hsub : s.genomes ⊆ used)
    (hcount : s.alive_genomes_count = (s.genomes.card : ℤ))
    (hfresh : freshAddRun used ops) :
    (runOps s ops).alive_genomes_count = ((runOps s ops).genomes.card : ℤ) := by
  induction ops generalizing used s with
  | nil => exact hcount
  | cons op ops ih =>
    cases op with
    | add gid =>
      obtain ⟨hnew, hrest⟩ := hfresh
      have hnotin : gid ∉ s.genomes := fun hc => hnew (hsub hc)
      refine ih (insert gid used) (add_genome s gid) ?_ ?_ hrest
      · exact Finset.insert_subset_insert gid hsub
      · show s.alive_genomes_count + 1 = ((insert gid s.genomes).card : ℤ)
        rw [Finset.card_insert_of_not_mem hnotin, hcount]
        push_cast
        ring
    | remove gid =>
      by_cases hmem : gid ∈ s.genomes
      · have hgen : (remove_genome s gid).genomes = s.genomes.erase gid := by
          simp only [remove_genome, hmem, if_true]
          cases dictGet? s.genome_species_map gid <;> rfl
        have hcnt : (remove_genome s gid).alive_genomes_count =
            s.alive_genomes_count - 1 := by
          simp only [remove_genome, hmem, if_true]
          cases dictGet? s.genome_species_map gid <;> rfl
        refine ih used (remove_genome s gid) ?_ ?_ hfresh
        · rw [hgen]
          exact (Finset.erase_subset gid s.genomes).trans hsub
        · have hpos : 0 < s.genomes.card := Finset.card_pos.mpr ⟨gid, hmem⟩
          rw [hgen, hcnt, hcount, Finset.card_erase_of_mem hmem]
          omega
      · have hid : remove_genome s gid = s := by
          simp only [remove_genome, hmem, if_false]
        refine ih used (remove_genome s gid) ?_ ?_ hfresh
        · rw [hid]; exact hsub
        · rw [hid]; exact hcount
    | setUnavailable gid => cases hfresh
    | setEvaluated gid => cases hfresh
    | setElite gid => cases hfresh
    | assignToSpecies gid sid => cases hfresh
    | clearEvaluated => cases hfresh
    | clearElites => cases hfresh

/-- C10: from a fresh store, any sequence of add_genome calls with
never-before-used ids and remove_genome calls with arbitrary ids leaves
get_alive_genomes_count equal to the number of stored genomes, and
remove_genome of an id that is not stored leaves the entire state
unchanged. -/
theorem alive_count_matches_store (ops : List GMOp)
    (hfresh : freshAddRun ∅ ops) :
    (runOps gmInit ops).alive_genomes_count =
        ((runOps gmInit ops).genomes.card : ℤ) ∧
      ∀ s : GMState, ∀ gid : ℕ, gid ∉ s.genomes → remove_genome s gid = s := by
  constructor
  · exact alive_count_run_aux ops ∅ gmInit (Finset.empty_subset _) rfl hfresh
  · intro s gid hmem
    simp only [remove_genome, hmem, if_false]

/-- Witness for the C10 theorem at a concrete run. -/
theorem alive_count_matches_store_witness :
    freshAddRun ∅ [.add 1, .add 2, .remove 1, .remove 5] ∧
      (runOps gmInit [.add 1, .add 2, .remove 1, .remove 5]).alive_genomes_count =
        ((runOps gmInit [.add 1, .add 2, .remove 1, .remove 5]).genomes.card : ℤ) :=
  ⟨by decide, (alive_count_matches_store [.add 1, .add 2, .remove 1, .remove 5]
    (by decide)).1⟩

/-!
## src/neuroevolution/evolution/speciation.py — Speciation

The partition step for one unspeciated genome: distances to the species
representatives come from the distance cache, modelled as a function of the
two genome ids; how_compatible returns 0.0 for a representative beyond the
threshold, and otherwise the raw distance itself, and the caller keeps an
entry only when that value is truthy (nonzero).  Python's
min(..., key=lambda x: x[0]) keeps the first entry attaining the minimum.
-/

/-- A species as the partition step sees it: its id and the id of its
representative genome. -/
structure SpeciesRep where
  sid : ℕ
  rep : ℕ
  deriving DecidableEq

/-- Embedding of the inner how_compatible of Speciation.get_compatible_genomes. -/
def how_compatible (compatibility_threshold d : ℚ) : ℚ :=
  if compatibility_threshold - d < 0 then 0 else d

/-- Embedding of Speciation.get_compatible_genomes for one genome g: the
(compatibility, species id) pairs over the species list, keeping only
truthy (nonzero) compatibility values. -/
def get_compatible_genomes (compatibility_threshold : ℚ) (dist : ℕ → ℕ → ℚ)
    (g : ℕ) : List SpeciesRep → List (ℚ × ℕ)
  | [] => []
  | sp :: rest =>
    let c := how_compatible compatibility_threshold (dist sp.rep g)
    if c = 0 then get_compatible_genomes compatibility_threshold dist g rest
    else (c, sp.sid) :: get_compatible_genomes compatibility_threshold dist g rest

/-- Python's min over a nonempty list with key = first component: scan
left to right, replacing the current best only on a strictly smaller key,
so the first entry attaining the minimum wins. -/
def pyMinFst (x : ℚ × ℕ) : List (ℚ × ℕ) → ℚ × ℕ
  | [] => x
  | y :: ys => pyMinFst (if y.1 < x.1 then y else x) ys

/-- The per-genome decision of Speciation.partition_population: some sid
when the genome is assigned to the existing species sid, none when a new
species is created with this genome as sole member and representative. -/
def partition_genome (compatibility_threshold : ℚ) (dist : ℕ → ℕ → ℚ)
    (species : List SpeciesRep) (g : ℕ) : Option ℕ :=
  match get_compatible_genomes compatibility_threshold dist g species with
  | [] => none
  | c :: cs => some (pyMinFst c cs).2

/-- C5 counterexample: with threshold 3 and a single species whose
representative is at distance 0 from the genome — below the threshold, so
the claim assigns the genome to that species — the code computes
how_compatible = 0.0, drops the species as falsy, and creates a new
species; and at distance exactly 3 — not below the threshold — the code
assigns the genome to the species. -/
theorem partition_genome_counterexample :
    partition_genome 3 (fun _ _ => 0) [⟨1, 5⟩] 9 = none ∧ ((0 : ℚ) < 3) ∧
      partition_genome 3 (fun _ _ => 3) [⟨1, 5⟩] 9 = some 1 ∧ ¬ ((3 : ℚ) < 3) := by
  refine ⟨?_, by norm_num, ?_, by norm_num⟩
  · simp only [partition_genome, get_compatible_genomes, how_compatible]
    norm_num
  · simp only [partition_genome, get_compatible_genomes, how_compatible, pyMinFst]
    norm_num [pyMinFst]

theorem pyMinFst_spec (x : ℚ × ℕ) (l : List (ℚ × ℕ))
    (h : (x :: l).Pairwise (fun a b => a.2 < b.2)) :
    pyMinFst x l ∈ x :: l ∧
      (∀ y ∈ x :: l, (pyMinFst x l).1 ≤ y.1) ∧
      (∀ y ∈ x :: l, y.1 = (pyMinFst x l).1 → (pyMinFst x l).2 ≤ y.2) := by
  induction l generalizing x with
  | nil =>
    refine ⟨List.mem_cons_self x [], ?_, ?_⟩
    · intro y hy
      rcases List.mem_cons.mp hy with heq | hy2
      · rw [heq, pyMinFst]
      · cases hy2
    · intro y hy _
      rcases List.mem_cons.mp hy with heq | hy2
      · rw [heq, pyMinFst]
      · cases hy2
  | cons y ys ih =>
    rw [List.pairwise_cons] at h
    obtain ⟨h1, h2⟩ := h
    have h2a : ∀ z ∈ ys, y.2 < z.2 := (List.pairwise_cons.mp h2).1
    have h2b : ys.Pairwise (fun a b => a.2 < b.2) := (List.pairwise_cons.mp h2).2
    by_cases hb : y.1 < x.1
    · obtain ⟨hmem, hmin, htie⟩ := ih y h2
      have hred : pyMinFst x (y :: ys) = pyMinFst y ys := by
        rw [pyMinFst, if_pos hb]
      rw [hred]
      refine ⟨List.mem_cons_of_mem x hmem, ?_, ?_⟩
      · intro z hz
        rcases List.mem_cons.mp hz with heq | hz2
        · have := hmin y (List.mem_cons_self y ys)
          rw [heq]
          linarith
        · exact hmin z hz2
      · intro z hz hzeq
        rcases List.mem_cons.mp hz with heq | hz2
        · have hy1 := hmin y (List.mem_cons_self y ys)
          rw [heq] at hzeq
          linarith
        · exact htie z hz2 hzeq
    · have hpb : (x :: ys).Pairwise (fun a b => a.2 < b.2) := by
        refine List.pairwise_cons.mpr ⟨?_, h2b⟩
        intro z hz
        exact h1 z (List.mem_cons_of_mem y hz)
      obtain ⟨hmem, hmin, htie⟩ := ih x hpb
      have hred : pyMinFst x (y :: ys) = pyMinFst x ys := by
        rw [pyMinFst, if_neg hb]
      rw [hred]
      have hxy : x.1 ≤ y.1 := le_of_not_lt hb
      have hrx : (pyMinFst x ys).1 ≤ x.1 := hmin x (List.mem_cons_self x ys)
      refine ⟨?_, ?_, ?_⟩
      · rcases List.mem_cons.mp hmem with heq | hmem2
        · rw [heq]
          exact List.mem_cons_self _ _
        · exact List.mem_cons_of_mem x (List.mem_cons_of_mem y hmem2)
      · intro z hz
        rcases List.mem_cons.mp hz with heq | hz2
        · rw [heq]
          exact hrx
        · rcases List.mem_cons.mp hz2 with heq | hz3
          · rw [heq]
            linarith
          · exact hmin z (List.mem_cons_of_mem x hz3)
      · intro z hz hzeq
        rcases List.mem_cons.mp hz with heq | hz2
        · rw [heq] at hzeq ⊢
          exact htie x (List.mem_cons_self x ys) hzeq
        · rcases List.mem_cons.mp hz2 with heq | hz3
          · rw [heq] at hzeq ⊢
            have hx1 : x.1 = (pyMinFst x ys).1 := by linarith
            have hx2 := htie x (List.mem_cons_self x ys) hx1
            have hxz2 : x.2 < y.2 := h1 y (List.mem_cons_self y ys)
            exact le_of_lt (lt_of_le_of_lt hx2 hxz2)
          · exact htie z (List.mem_cons_of_mem x hz3) hzeq

theorem how_compatible_eq_zero_iff (compatibility_threshold d : ℚ) :
    how_compatible compatibility_threshold d = 0 ↔
      (d = 0 ∨ compatibility_threshold < d) := by
  unfold how_compatible
  by_cases hc : compatibility_threshold - d < 0
  · simp only [hc, if_true]
    constructor
    · intro _
      right
      linarith
    · intro _
      trivial
  · simp only [hc, if_false]
    constructor
    · intro hd
      exact Or.inl hd
    · intro hd
      rcases hd with hd | hd
      · exact hd
      · exact absurd (by linarith : compatibility_threshold - d < 0) hc

theorem mem_get_compatible (compatibility_threshold : ℚ) (dist : ℕ → ℕ → ℚ)
    (g : ℕ) (species : List SpeciesRep) (p : ℚ × ℕ) :
    p ∈ get_compatible_genomes compatibility_threshold dist g species ↔
      ∃ sp ∈ species, p = (dist sp.rep g, sp.sid) ∧ dist sp.rep g ≠ 0 ∧
        dist sp.rep g ≤ compatibility_threshold := by
  induction species with
  | nil =>
    simp [get_compatible_genomes]
  | cons sp rest ih =>
    rw [get_compatible_genomes]
    by_cases hc : how_compatible compatibility_threshold (dist sp.rep g) = 0
    · rw [if_pos hc, ih]
      have hnq : ¬ (dist sp.rep g ≠ 0 ∧ dist sp.rep g ≤ compatibility_threshold) := by
        rcases (how_compatible_eq_zero_iff _ _).mp hc with hd | hd
        · intro hq
          exact hq.1 hd
        · intro hq
          linarith [hq.2]
      constructor
      · intro hex
        obtain ⟨sp2, hsp2, hrest⟩ := hex
        exact ⟨sp2, List.mem_cons_of_mem sp hsp2, hrest⟩
      · intro hex
        obtain ⟨sp2, hsp2, hrest⟩ := hex
        rcases List.mem_cons.mp hsp2 with heq | hsp3
        · rw [heq] at hrest
          exact absurd ⟨hrest.2.1, hrest.2.2⟩ hnq
        · exact ⟨sp2, hsp3, hrest⟩
    · have hd0 : dist sp.rep g ≠ 0 ∧ dist sp.rep g ≤ compatibility_threshold := by
        by_contra hcon
        rcases not_and_or.mp hcon with hcon | hcon
        · exact hc ((how_compatible_eq_zero_iff _ _).mpr (Or.inl (not_not.mp hcon)))
        · exact hc ((how_compatible_eq_zero_iff _ _).mpr (Or.inr (lt_of_not_le hcon)))
      have hval : how_compatible compatibility_threshold (dist sp.rep g) =
          dist sp.rep g := by
        unfold how_compatible
        rw [if_neg (by linarith [hd0.2] : ¬ compatibility_threshold - dist sp.rep g < 0)]
      rw [if_neg hc, hval]
      constructor
      · intro hp
        rcases List.mem_cons.mp hp with heq | hp2
        · exact ⟨sp, List.mem_cons_self sp rest, heq, hd0⟩
        · obtain ⟨sp2, hsp2, hrest⟩ := ih.mp hp2
          exact ⟨sp2, List.mem_cons_of_mem sp hsp2, hrest⟩
      · intro hex
        obtain ⟨sp2, hsp2, heq, hrest⟩ := hex
        rcases List.mem_cons.mp hsp2 with heq2 | hsp3
        · rw [heq2] at heq
          rw [heq]
          exact List.mem_cons_self _ _
        · exact List.mem_cons_of_mem _ (ih.mpr ⟨sp2, hsp3, heq, hrest⟩)

theorem pairwise_get_compatible (compatibility_threshold : ℚ) (dist : ℕ → ℕ → ℚ)
    (g : ℕ) (species : List SpeciesRep)
    (hinc : species.Pairwise (fun a b => a.sid < b.sid)) :
    (get_compatible_genomes compatibility_threshold dist g species).Pairwise
      (fun a b => a.2 < b.2) := by
  induction species with
  | nil => exact List.Pairwise.nil
  | cons sp rest ih =>
    rw [List.pairwise_cons] at hinc
    rw [get_compatible_genomes]
    by_cases hc : how_compatible compatibility_threshold (dist sp.rep g) = 0
    · rw [if_pos hc]
      exact ih hinc.2
    · rw [if_neg hc]
      refine List.pairwise_cons.mpr ⟨?_, ih hinc.2⟩
      intro q hq
      obtain ⟨sp2, hsp2, heq, _⟩ := (mem_get_compatible _ _ _ _ _).mp hq
      rw [heq]
      exact hinc.1 sp2 hsp2

/-- C5 amended: during the partition step a genome is assigned to an
existing species iff some representative lies at a distance d with d ≠ 0
and d ≤ compatibility_threshold (a distance of exactly 0 is treated as
incompatible by the truthiness test, and a distance exactly equal to the
threshold is accepted); among the qualifying species it is assigned to one
at minimum distance, ties resolved to the lowest-numbered species id
(species ids increase along the iteration order); with no qualifying
species a new species is created with this genome as sole member and
representative. -/
theorem partition_genome_spec (compatibility_threshold : ℚ) (dist : ℕ → ℕ → ℚ)
    (species : List SpeciesRep) (g : ℕ)
    (hinc : species.Pairwise (fun a b => a.sid < b.sid)) :
    (partition_genome compatibility_threshold dist species g = none ↔
      ∀ sp ∈ species, dist sp.rep g = 0 ∨ compatibility_threshold < dist sp.rep g) ∧
    (∀ sid, partition_genome compatibility_threshold dist species g = some sid →
      ∃ sp ∈ species, sp.sid = sid ∧ dist sp.rep g ≠ 0 ∧
        dist sp.rep g ≤ compatibility_threshold ∧
        (∀ sp2 ∈ species, dist sp2.rep g ≠ 0 →
          dist sp2.rep g ≤ compatibility_threshold →
          dist sp.rep g ≤ dist sp2.rep g) ∧
        (∀ sp2 ∈ species, dist sp2.rep g ≠ 0 →
          dist sp2.rep g ≤ compatibility_threshold →
          dist sp2.rep g = dist sp.rep g → sid ≤ sp2.sid)) := by
  have hiff : (get_compatible_genomes compatibility_threshold dist g species = []) ↔
      (∀ sp ∈ species,
        dist sp.rep g = 0 ∨ compatibility_threshold < dist sp.rep g) := by
    rw [List.eq_nil_iff_forall_not_mem]
    constructor
    · intro hno sp hsp
      by_contra hcon
      obtain ⟨hne, hnlt⟩ := not_or.mp hcon
      exact hno (dist sp.rep g, sp.sid)
        ((mem_get_compatible _ _ _ _ _).mpr
          ⟨sp, hsp, rfl, hne, le_of_not_lt hnlt⟩)
    · intro hall p hp
      obtain ⟨sp, hsp, _, hne, hle⟩ := (mem_get_compatible _ _ _ _ _).mp hp
      rcases hall sp hsp with h0 | hgt
      · exact hne h0
      · linarith
  constructor
  · rw [← hiff]
    cases hL : get_compatible_genomes compatibility_threshold dist g species with
    | nil =>
      rw [partition_genome, hL]
      simp
    | cons c cs =>
      rw [partition_genome, hL]
      simp
  · intro sid hsid
    cases hL : get_compatible_genomes compatibility_threshold dist g species with
    | nil =>
      rw [partition_genome, hL] at hsid
      cases hsid
    | cons c cs =>
      rw [partition_genome, hL] at hsid
      have hr2 : (pyMinFst c cs).2 = sid := Option.some.inj hsid
      have hpw : (c :: cs).Pairwise (fun a b => a.2 < b.2) := by
        have hp := pairwise_get_compatible compatibility_threshold dist g species hinc
        rw [hL] at hp
        exact hp
      obtain ⟨hmem, hmin, htie⟩ := pyMinFst_spec c cs hpw
      have hrmem : pyMinFst c cs ∈
          get_compatible_genomes compatibility_threshold dist g species := by
        rw [hL]
        exact hmem
      obtain ⟨sp, hsp, heq, hne, hle⟩ := (mem_get_compatible _ _ _ _ _).mp hrmem
      have hr1 : (pyMinFst c cs).1 = dist sp.rep g := by rw [heq]
      have hrsid : sp.sid = sid := by
        rw [← hr2, heq]
      refine ⟨sp, hsp, hrsid, hne, hle, ?_, ?_⟩
      · intro sp2 hsp2 hne2 hle2
        have hq2 : (dist sp2.rep g, sp2.sid) ∈
            get_compatible_genomes compatibility_threshold dist g species :=
          (mem_get_compatible _ _ _ _ _).mpr ⟨sp2, hsp2, rfl, hne2, hle2⟩
        rw [hL] at hq2
        have := hmin _ hq2
        rw [hr1] at this
        exact this
      · intro sp2 hsp2 hne2 hle2 heqd
        have hq2 : (dist sp2.rep g, sp2.sid) ∈
            get_compatible_genomes compatibility_threshold dist g species :=
          (mem_get_compatible _ _ _ _ _).mpr ⟨sp2, hsp2, rfl, hne2, hle2⟩
        rw [hL] at hq2
        have htq := htie _ hq2 (by rw [hr1]; exact heqd)
        rw [hr2] at htq
        exact htq

/-- Witness for the amended C5 theorem: two species both at distance 2 with
threshold 3; the genome goes to the lowest-numbered species 1, and the
theorem instantiates there. -/
theorem partition_genome_spec_witness :
    ([⟨1, 5⟩, ⟨2, 6⟩] : List SpeciesRep).Pairwise (fun a b => a.sid < b.sid) ∧
      partition_genome 3 (fun _ _ => 2) [⟨1, 5⟩, ⟨2, 6⟩] 9 = some 1 ∧
      ∃ sp ∈ ([⟨1, 5⟩, ⟨2, 6⟩] : List SpeciesRep), sp.sid = 1 ∧
        (fun _ _ => (2 : ℚ)) sp.rep 9 ≠ 0 ∧
        (fun _ _ => (2 : ℚ)) sp.rep 9 ≤ 3 ∧
        (∀ sp2 ∈ ([⟨1, 5⟩, ⟨2, 6⟩] : List SpeciesRep),
          (fun _ _ => (2 : ℚ)) sp2.rep 9 ≠ 0 →
          (fun _ _ => (2 : ℚ)) sp2.rep 9 ≤ 3 →
          (fun _ _ => (2 : ℚ)) sp.rep 9 ≤ (fun _ _ => (2 : ℚ)) sp2.rep 9) ∧
        (∀ sp2 ∈ ([⟨1, 5⟩, ⟨2, 6⟩] : List SpeciesRep),
          (fun _ _ => (2 : ℚ)) sp2.rep 9 ≠ 0 →
          (fun _ _ => (2 : ℚ)) sp2.rep 9 ≤ 3 →
          (fun _ _ => (2 : ℚ)) sp2.rep 9 = (fun _ _ => (2 : ℚ)) sp.rep 9 →
          1 ≤ sp2.sid) := by
  have heval : partition_genome 3 (fun _ _ => 2) [⟨1, 5⟩, ⟨2, 6⟩] 9 = some 1 := by
    simp only [partition_genome, get_compatible_genomes, how_compatible, pyMinFst]
    norm_num [pyMinFst]
  have hpw : ([⟨1, 5⟩, ⟨2, 6⟩] : List SpeciesRep).Pairwise
      (fun a b => a.sid < b.sid) := by decide
  exact ⟨hpw, heval,
    (partition_genome_spec 3 (fun _ _ => 2) [⟨1, 5⟩, ⟨2, 6⟩] 9 hpw).2 1 heval⟩

/-!
## src/neuroevolution/evolution/genome_distance_cache.py — GenomeDistanceCache

Genomes are identified by their keys; the underlying
genome0.distance(genome1, config) collaborator is a function of the two
keys (genomes are immutable once created).  The distances dictionary maps
ordered key pairs to values; hits and misses are the observability
counters; computed is the log of invocations of the underlying distance
computation, one entry per miss.
-/

/-- Pair-keyed dict lookup. -/
def pairGet? (l : List ((ℕ × ℕ) × ℚ)) (k : ℕ × ℕ) : Option ℚ :=
  (l.find? (fun p => p.1 == k)).map (fun p => p.2)

/-- Pair-keyed dict assignment.  The list is only ever read through
first-match lookup (pairGet?), so prepending the new binding realizes
Python's dict update on the mapping it represents. -/
def pairSet (l : List ((ℕ × ℕ) × ℚ)) (k : ℕ × ℕ) (v : ℚ) : List ((ℕ × ℕ) × ℚ) :=
  (k, v) :: l

/-- The GenomeDistanceCache state. -/
structure CacheState where
  distances : List ((ℕ × ℕ) × ℚ)
  hits : ℕ
  misses : ℕ
  computed : List (ℕ × ℕ)
  deriving DecidableEq

/-- The cache built by GenomeDistanceCache.__init__. -/
def cacheInit : CacheState := ⟨[], 0, 0, []⟩

/-- Embedding of GenomeDistanceCache.__call__: return the cached value and
count a hit, or invoke the underlying distance, store it under both (g0,g1)
and (g1,g0), count a miss and log the computation. -/
def callCache (dist : ℕ → ℕ → ℚ) (g0 g1 : ℕ) (s : CacheState) : ℚ × CacheState :=
  match pairGet? s.distances (g0, g1) with
  | some d => (d, { s with hits := s.hits + 1 })
  | none =>
    let d := dist g0 g1
    (d, { s with
      distances := pairSet (pairSet s.distances (g0, g1) d) (g1, g0) d
      misses := s.misses + 1
      computed := s.computed ++ [(g0, g1)] })

/-- A sequence of cache calls, collecting the returned distances. -/
def runCalls (dist : ℕ → ℕ → ℚ) : List (ℕ × ℕ) → CacheState → List ℚ × CacheState
  | [], s => ([], s)
  | p :: ps, s =>
    let r := callCache dist p.1 p.2 s
    let rr := runCalls dist ps r.2
    (r.1 :: rr.1, rr.2)

/-- The number of underlying distance computations logged for the
unordered pair of a and b. -/
def countPair (l : List (ℕ × ℕ)) (a b : ℕ) : ℕ :=
  (l.filter (fun p => p == (a, b) || p == (b, a))).length

theorem pairGet?_set_self (l : List ((ℕ × ℕ) × ℚ)) (k : ℕ × ℕ) (v : ℚ) :
    pairGet? (pairSet l k v) k = some v := by
  unfold pairSet pairGet?
  simp [List.find?_cons]

theorem pairGet?_set_ne (l : List ((ℕ × ℕ) × ℚ)) (k q : ℕ × ℕ) (v : ℚ)
    (hne : q ≠ k) : pairGet? (pairSet l k v) q = pairGet? l q := by
  unfold pairSet pairGet?
  have hkq : ((k, v).1 == q) = false := by
    simp only [beq_eq_false_iff_ne, ne_eq]
    exact fun hc => hne hc.symm
  rw [List.find?_cons, hkq]

/-- Both orientations of every pair are cached consistently. -/
def symCache (s : CacheState) : Prop :=
  ∀ a b : ℕ, pairGet? s.distances (a, b) = pairGet? s.distances (b, a)

/-- Each unordered pair is computed at most once, and never before its
first cache miss. -/
def missInv (s : CacheState) : Prop :=
  ∀ a b : ℕ, countPair s.computed a b ≤ 1 ∧
    (pairGet? s.distances (a, b) = none → countPair s.computed a b = 0)

theorem symCache_init : symCache cacheInit := fun _ _ => rfl

theorem missInv_init : missInv cacheInit :=
  fun _ _ => ⟨Nat.zero_le 1, fun _ => rfl⟩

theorem callCache_hit (dist : ℕ → ℕ → ℚ) (a b : ℕ) (s : CacheState) (d : ℚ)
    (h : pairGet? s.distances (a, b) = some d) :
    callCache dist a b s = (d, { s with hits := s.hits + 1 }) := by
  unfold callCache
  rw [h]

theorem callCache_miss (dist : ℕ → ℕ → ℚ) (a b : ℕ) (s : CacheState)
    (h : pairGet? s.distances (a, b) = none) :
    callCache dist a b s = (dist a b, { s with
      distances := pairSet (pairSet s.distances (a, b) (dist a b)) (b, a) (dist a b)
      misses := s.misses + 1
      computed := s.computed ++ [(a, b)] }) := by
  unfold callCache
  rw [h]

theorem get_after_double_set (D : List ((ℕ × ℕ) × ℚ)) (a b : ℕ) (v : ℚ)
    (q : ℕ × ℕ) :
    pairGet? (pairSet (pairSet D (a, b) v) (b, a) v) q =
      if q = (b, a) then some v else if q = (a, b) then some v
      else pairGet? D q := by
  by_cases h1 : q = (b, a)
  · rw [if_pos h1, h1, pairGet?_set_self]
  · rw [if_neg h1, pairGet?_set_ne _ _ _ _ h1]
    by_cases h2 : q = (a, b)
    · rw [if_pos h2, h2, pairGet?_set_self]
    · rw [if_neg h2, pairGet?_set_ne _ _ _ _ h2]

theorem callCache_cached_self (dist : ℕ → ℕ → ℚ) (a b : ℕ) (s : CacheState) :
    pairGet? (callCache dist a b s).2.distances (a, b) =
      some (callCache dist a b s).1 := by
  cases hget : pairGet? s.distances (a, b) with
  | some d =>
    rw [callCache_hit dist a b s d hget]
    exact hget
  | none =>
    rw [callCache_miss dist a b s hget]
    rw [get_after_double_set]
    by_cases h1 : (a, b) = ((b, a) : ℕ × ℕ)
    · rw [if_pos h1]
    · rw [if_neg h1, if_pos rfl]

theorem callCache_sym (dist : ℕ → ℕ → ℚ) (a b : ℕ) (s : CacheState)
    (hs : symCache s) : symCache (callCache dist a b s).2 := by
  cases hget : pairGet? s.distances (a, b) with
  | some d =>
    rw [callCache_hit dist a b s d hget]
    exact hs
  | none =>
    rw [callCache_miss dist a b s hget]
    intro x y
    rw [get_after_double_set, get_after_double_set]
    by_cases hxb : x = b <;> by_cases hya : y = a <;>
      by_cases hxa : x = a <;> by_cases hyb : y = b <;>
      simp [Prod.ext_iff, hxb, hya, hxa, hyb] <;>
      first
      | rfl
      | exact hs _ _

theorem callCache_stable (dist : ℕ → ℕ → ℚ) (a b : ℕ) (s : CacheState)
    (q : ℕ × ℕ) (v : ℚ) (hs : symCache s)
    (h : pairGet? s.distances q = some v) :
    pairGet? (callCache dist a b s).2.distances q = some v := by
  cases hget : pairGet? s.distances (a, b) with
  | some d =>
    rw [callCache_hit dist a b s d hget]
    exact h
  | none =>
    rw [callCache_miss dist a b s hget]
    rw [get_after_double_set]
    have hq1 : q ≠ (a, b) := by
      intro hc
      rw [hc, hget] at h
      cases h
    have hq2 : q ≠ (b, a) := by
      intro hc
      rw [hc] at h
      rw [← hs a b, hget] at h
      cases h
    rw [if_neg hq2, if_neg hq1]
    exact h

theorem countPair_append_same (l : List (ℕ × ℕ)) (a b : ℕ) (p : ℕ × ℕ)
    (h : p = (a, b) ∨ p = (b, a)) :
    countPair (l ++ [p]) a b = countPair l a b + 1 := by
  unfold countPair
  rw [List.filter_append, List.length_append]
  have hp : (p == (a, b) || p == (b, a)) = true := by
    rcases h with h | h <;> simp [h]
  simp [hp]

theorem countPair_append_other (l : List (ℕ × ℕ)) (a b : ℕ) (p : ℕ × ℕ)
    (h1 : p ≠ (a, b)) (h2 : p ≠ (b, a)) :
    countPair (l ++ [p]) a b = countPair l a b := by
  unfold countPair
  rw [List.filter_append, List.length_append]
  have hp : (p == (a, b) || p == (b, a)) = false := by
    simp [h1, h2]
  simp [hp]

theorem callCache_missInv (dist : ℕ → ℕ → ℚ) (x y : ℕ) (s : CacheState)
    (hs : symCache s) (hm : missInv s) : missInv (callCache dist x y s).2 := by
  cases hget : pairGet? s.distances (x, y) with
  | some d =>
    rw [callCache_hit dist x y s d hget]
    exact hm
  | none =>
    rw [callCache_miss dist x y s hget]
    intro a b
    by_cases hsame : (x, y) = ((a, b) : ℕ × ℕ) ∨ (x, y) = ((b, a) : ℕ × ℕ)
    · have hnone : pairGet? s.distances (a, b) = none := by
        rcases hsame with h | h
        · rw [← h]
          exact hget
        · have hxy : x = b ∧ y = a := by
            rw [Prod.ext_iff] at h
            exact ⟨h.1, h.2⟩
          rw [hs a b, ← hxy.1, ← hxy.2]
          exact hget
      have hcnt := (hm a b).2 hnone
      constructor
      · rw [countPair_append_same _ _ _ _ hsame, hcnt]
      · intro hnone2
        rw [get_after_double_set] at hnone2
        rcases hsame with h | h
        · rw [Prod.ext_iff] at h
          have hab : ((a, b) : ℕ × ℕ) = (x, y) := by
            rw [Prod.ext_iff]
            exact ⟨h.1.symm, h.2.symm⟩
          by_cases hba : ((a, b) : ℕ × ℕ) = (y, x)
          · rw [if_pos hba] at hnone2
            cases hnone2
          · rw [if_neg hba, if_pos hab] at hnone2
            cases hnone2
        · have hab : ((a, b) : ℕ × ℕ) = (y, x) := by
            rw [Prod.ext_iff] at h ⊢
            exact ⟨h.2.symm, h.1.symm⟩
          rw [if_pos hab] at hnone2
          cases hnone2
    · push_neg at hsame
      constructor
      · rw [countPair_append_other _ _ _ _ hsame.1 hsame.2]
        exact (hm a b).1
      · intro hnone2
        rw [countPair_append_other _ _ _ _ hsame.1 hsame.2]
        apply (hm a b).2
        rw [get_after_double_set] at hnone2
        have hne1 : ((a, b) : ℕ × ℕ) ≠ (y, x) := by
          intro hc
          rw [Prod.ext_iff] at hc
          exact hsame.2 (by rw [Prod.ext_iff]; exact ⟨hc.2.symm, hc.1.symm⟩)
        have hne2 : ((a, b) : ℕ × ℕ) ≠ (x, y) := by
          intro hc
          rw [Prod.ext_iff] at hc
          exact hsame.1 (by rw [Prod.ext_iff]; exact ⟨hc.1.symm, hc.2.symm⟩)
        rw [if_neg hne1, if_neg hne2] at hnone2
        exact hnone2

theorem runCalls_sym (dist : ℕ → ℕ → ℚ) (ps : List (ℕ × ℕ)) (s : CacheState)
    (hs : symCache s) : symCache (runCalls dist ps s).2 := by
  induction ps generalizing s with
  | nil => exact hs
  | cons p ps ih => exact ih _ (callCache_sym dist p.1 p.2 s hs)

theorem runCalls_stable (dist : ℕ → ℕ → ℚ) (ps : List (ℕ × ℕ)) (s : CacheState)
    (q : ℕ × ℕ) (v : ℚ) (hs : symCache s)
    (h : pairGet? s.distances q = some v) :
    pairGet? (runCalls dist ps s).2.distances q = some v := by
  induction ps generalizing s with
  | nil => exact h
  | cons p ps ih =>
    exact ih _ (callCache_sym dist p.1 p.2 s hs)
      (callCache_stable dist p.1 p.2 s q v hs h)

theorem runCalls_missInv (dist : ℕ → ℕ → ℚ) (ps : List (ℕ × ℕ)) (s : CacheState)
    (hs : symCache s) (hm : missInv s) : missInv (runCalls dist ps s).2 := by
  induction ps generalizing s with
  | nil => exact hm
  | cons p ps ih =>
    exact ih _ (callCache_sym dist p.1 p.2 s hs)
      (callCache_missInv dist p.1 p.2 s hs hm)

theorem runCalls_length (dist : ℕ → ℕ → ℚ) (ps : List (ℕ × ℕ)) (s : CacheState) :
    (runCalls dist ps s).1.length = ps.length := by
  induction ps generalizing s with
  | nil => rfl
  | cons p ps ih =>
    show (runCalls dist ps (callCache dist p.1 p.2 s).2).1.length + 1 = ps.length + 1
    rw [ih]

theorem runCalls_final_cached (dist : ℕ → ℕ → ℚ) (ps : List (ℕ × ℕ))
    (s : CacheState) (hs : symCache s) (i : ℕ) (hi : i < ps.length) :
    pairGet? (runCalls dist ps s).2.distances (ps.get ⟨i, hi⟩) =
      some ((runCalls dist ps s).1.get
        ⟨i, by rw [runCalls_length]; exact hi⟩) := by
  induction ps generalizing s i with
  | nil => cases hi
  | cons p ps ih =>
    cases i with
    | zero =>
      have hcached := callCache_cached_self dist p.1 p.2 s
      have hstable := runCalls_stable dist ps (callCache dist p.1 p.2 s).2
        (p.1, p.2) (callCache dist p.1 p.2 s).1
        (callCache_sym dist p.1 p.2 s hs) hcached
      exact hstable
    | succ k =>
      have hk : k < ps.length := Nat.lt_of_succ_lt_succ hi
      exact ih (callCache dist p.1 p.2 s).2 (callCache_sym dist p.1 p.2 s hs) k hk

/-- C7: in any sequence of distance-cache calls, any two calls on the same
unordered genome pair (in either orientation) return the same value, and
the underlying distance computation runs at most once for the pair across
the whole sequence. -/
theorem distance_cache_symmetric_memoized (dist : ℕ → ℕ → ℚ)
    (calls : List (ℕ × ℕ)) (a b : ℕ) (i j : ℕ)
    (hi : i < calls.length) (hj : j < calls.length)
    (hpi : calls.get ⟨i, hi⟩ = (a, b) ∨ calls.get ⟨i, hi⟩ = (b, a))
    (hpj : calls.get ⟨j, hj⟩ = (a, b) ∨ calls.get ⟨j, hj⟩ = (b, a)) :
    (runCalls dist calls cacheInit).1.get
        ⟨i, by rw [runCalls_length]; exact hi⟩ =
      (runCalls dist calls cacheInit).1.get
        ⟨j, by rw [runCalls_length]; exact hj⟩ ∧
    countPair (runCalls dist calls cacheInit).2.computed a b ≤ 1 := by
  have hsym := runCalls_sym dist calls cacheInit symCache_init
  have hfin_i := runCalls_final_cached dist calls cacheInit symCache_init i hi
  have hfin_j := runCalls_final_cached dist calls cacheInit symCache_init j hj
  have hget_i : pairGet? (runCalls dist calls cacheInit).2.distances (a, b) =
      some ((runCalls dist calls cacheInit).1.get
        ⟨i, by rw [runCalls_length]; exact hi⟩) := by
    rcases hpi with h | h
    · rw [h] at hfin_i
      exact hfin_i
    · rw [h] at hfin_i
      rw [hsym a b]
      exact hfin_i
  have hget_j : pairGet? (runCalls dist calls cacheInit).2.distances (a, b) =
      some ((runCalls dist calls cacheInit).1.get
        ⟨j, by rw [runCalls_length]; exact hj⟩) := by
    rcases hpj with h | h
    · rw [h] at hfin_j
      exact hfin_j
    · rw [h] at hfin_j
      rw [hsym a b]
      exact hfin_j
  constructor
  · have := hget_i.symm.trans hget_j
    exact Option.some.inj this
  · exact (runCalls_missInv dist calls cacheInit symCache_init missInv_init a b).1

/-- Witness for the C7 theorem: three calls on the pair of genomes 1 and 2,
in both orientations, with an asymmetric underlying function; the first and
second returned values coincide and the pair is computed once. -/
theorem distance_cache_symmetric_memoized_witness :
    (runCalls (fun x y => (2 * x + y : ℚ)) [(1, 2), (2, 1), (1, 2)] cacheInit).1.get
        ⟨0, by rw [runCalls_length]; decide⟩ =
      (runCalls (fun x y => (2 * x + y : ℚ)) [(1, 2), (2, 1), (1, 2)] cacheInit).1.get
        ⟨1, by rw [runCalls_length]; decide⟩ ∧
    countPair (runCalls (fun x y => (2 * x + y : ℚ))
      [(1, 2), (2, 1), (1, 2)] cacheInit).2.computed 1 2 ≤ 1 :=
  distance_cache_symmetric_memoized (fun x y => (2 * x + y : ℚ))
    [(1, 2), (2, 1), (1, 2)] 1 2 0 1 (by decide) (by decide)
    (Or.inl rfl) (Or.inr (by decide))
